import Mathlib

/-!
Verification of the dagology matrix core (`src/dagology/matrix/matrix_utils.py`
and `src/algorithms/dagsep.py`) against its natural-language specification.

Matrices are shallowly embedded as functions `Fin N → Fin N → ℤ` (for the 0/1
adjacency-matrix utilities), `Fin N → Fin N → ℕ` (for the longest-path engine,
whose values are path lengths), and `Fin N → Fin N → ℚ` (for the separation
engine, whose values are signed squared separations, including the rational
averages of the two-link estimator).  numpy float arrays only ever hold these
exact integer/rational values in the modelled code paths.

`while` loops become explicit state-passing recursions; loops whose iteration
count is bounded by the code itself (the `assert i < N` counter in
`transitive_completion`, the `i == dmax` cutoff plus nilpotency in
`longest_path_matrix`) take explicit fuel, and `none` marks the Python-level
failure (an `AssertionError`, or divergence when no bound applies).
-/

/-- Square rational matrix, the type of `LP` / `ds2` / `S` arrays. -/
abbrev QMat (N : ℕ) := Fin N → Fin N → ℚ

/-- Square natural-number matrix, the type of adjacency/longest-path arrays. -/
abbrev NMat (N : ℕ) := Fin N → Fin N → ℕ

/-- Square integer matrix, the type used for the 0/1 closure/reduction code
(`A_0 - A` can be negative before clamping, so entries live in ℤ). -/
abbrev ZMat (N : ℕ) := Fin N → Fin N → ℤ

/-- Model of `causet_adj_matrix(S, R)` (matrix_utils.py lines 12-25): `A[i,j] = 1` iff
`R[i,0] > R[j,0]` and `S[i,j] < 0`, else 0.  `R` is an N×(2 or more) coordinate
array of which only column 0 is read, so it is embedded as a function from the
row index and the raw column index. -/
def causet_adj_matrix {N : ℕ} (S : QMat N) (R : Fin N → ℕ → ℚ) : QMat N :=
  fun i j => if R i 0 > R j 0 ∧ S i j < 0 then 1 else 0

/-- numpy-style bounds-checked element access on a raggedly-shaped
(list-of-rows) matrix: `none` models an `IndexError`. -/
def getEntry (M : List (List ℚ)) (i j : ℕ) : Option ℚ :=
  (M[i]?).bind fun r => r[j]?

/-- Model of `causet_adj_matrix` on raw list-of-rows inputs, keeping the shapes of the
arguments observable: `N = S.shape[0]` is the number of rows of `S`, and each
read `R[i,0]`, `R[j,0]`, `S[i,j]` can fail (`none`) exactly when the
corresponding numpy access would raise.  The inner conditional mirrors the
nested `if R[i,0] > R[j,0]: if S[i,j] < 0:` of the source, including the fact
that `S[i,j]` is only read when the first test passes. -/
def causet_adj_matrixL (S R : List (List ℚ)) : Option (List (List ℚ)) :=
  let N := S.length
  (List.range N).mapM fun i =>
    (List.range N).mapM fun j => do
      let ri ← getEntry R i 0
      let rj ← getEntry R j 0
      if ri > rj then do
        let s ← getEntry S i j
        pure (if s < 0 then (1 : ℚ) else 0)
      else
        pure 0

/-- C10: `causet_adj_matrix` always returns a strict antisymmetric relation:
zero diagonal, and never `A[i,j] = A[j,i] = 1`, for every input `S`, `R`
(consistent or not), because `A[i,j] = 1` requires the strict inequality
`R[i,0] > R[j,0]`. -/
theorem causet_adj_matrix_strict_antisymm {N : ℕ} (S : QMat N)
    (R : Fin N → ℕ → ℚ) :
    (∀ i, causet_adj_matrix S R i i = 0) ∧
      (∀ i j, ¬(causet_adj_matrix S R i j = 1 ∧ causet_adj_matrix S R j i = 1)) := by
  constructor
  · intro i
    simp [causet_adj_matrix]
  · intro i j h
    rcases h with ⟨hij, hji⟩
    unfold causet_adj_matrix at hij hji
    by_cases h1 : R i 0 > R j 0 ∧ S i j < 0
    · by_cases h2 : R j 0 > R i 0 ∧ S j i < 0
      · exact absurd h2.1 (not_lt.mpr (le_of_lt h1.1))
      · rw [if_neg h2] at hji
        norm_num at hji
    · rw [if_neg h1] at hij
      norm_num at hij

/-- One iteration of the `transitive_completion` while-loop
(matrix_utils.py lines 35-38): `A ← A·A₀ + A₀`, then clamp entries above 1
down to 1 (`A[A>1.] = 1.`; the code has no lower clamp here). -/
def tcStep {N : ℕ} (A0 A : ZMat N) : ZMat N := fun i j =>
  let v := (∑ k, A i k * A0 k j) + A0 i j
  if v > 1 then 1 else v

/-- The `while A_diff` loop of `transitive_completion` (matrix_utils.py lines
34-42) as explicit state passing: the state is the current matrix and the
iteration counter `i`; each pass computes the new matrix, and the
`assert i < N` (checked after the convergence test but before the loop can
exit) turns into the `N ≤ i` branch returning `none` (an `AssertionError`).
The `assert` bounds the counter, so the loop runs at most `N + 1` passes; the
fuel argument makes the recursion structural and `N + 1` fuel is always
enough (`tcLoop_fuel` below). -/
def tcLoop {N : ℕ} (A0 : ZMat N) : ZMat N → ℕ → ℕ → Option (ZMat N)
  | _, _, 0 => none
  | A, i, fuel + 1 =>
    let A2 := tcStep A0 A
    if N ≤ i then none
    else if A2 = A then some A2
    else tcLoop A0 A2 (i + 1) fuel

/-- Model of `transitive_completion(A_)` (matrix_utils.py lines 27-43): run the loop
from the input matrix with counter 0.  `none` models the
`AssertionError 'ERROR - Transitive Completion required more than N steps'`. -/
def transitive_completion {N : ℕ} (A : ZMat N) : Option (ZMat N) :=
  tcLoop A A 0 (N + 1)

/-- One iteration of the `transitive_reduction` while-loop (matrix_utils.py
lines 63-68): `A ← A₀ - A·A₀`, clamp entries below 1 to 0 and above 1 to 1. -/
def trStep {N : ℕ} (A0 A : ZMat N) : ZMat N := fun i j =>
  let v := A0 i j - ∑ k, A i k * A0 k j
  if v < 1 then 0 else if v > 1 then 1 else v

/-- Model of `transitive_reduction(A_, LP=None)` (matrix_utils.py lines 45-69): iterate
`trStep` exactly `max_path` times, where `max_path` is `LP` when that argument
is truthy (a nonzero number) and `N` otherwise. -/
def transitive_reduction {N : ℕ} (A : ZMat N) (LP : Option ℕ := none) : ZMat N :=
  (trStep A)^[match LP with | none => N | some m => if m = 0 then N else m] A

/-- Predicate `Walk A s i j`: the digraph encoded by the nonzero entries of `A` (entry
`(i,j)` read as a step `i → j`, matching the index order of the matrix
products `np.dot(A, A_0)[i,j] = Σₖ A[i,k]·A₀[k,j]` in the source) has a walk
of length `s` from `i` to `j`. -/
def Walk {N : ℕ} (A : ZMat N) : ℕ → Fin N → Fin N → Prop
  | 0, i, j => i = j
  | s + 1, i, j => ∃ k, Walk A s i k ∧ A k j ≠ 0

instance walkDecidable {N : ℕ} (A : ZMat N) :
    ∀ (s : ℕ) (i j : Fin N), Decidable (Walk A s i j)
  | 0, i, j => decidable_of_iff (i = j) Iff.rfl
  | s + 1, i, j =>
    haveI : ∀ i' j', Decidable (Walk A s i' j') := walkDecidable A s
    decidable_of_iff (∃ k, Walk A s i k ∧ A k j ≠ 0) Iff.rfl

/-- The input encodes a DAG: no closed walk of positive length. -/
def IsDag {N : ℕ} (A : ZMat N) : Prop :=
  ∀ (i : Fin N) (s : ℕ), 1 ≤ s → ¬ Walk A s i i

/-- All entries are 0 or 1. -/
abbrev Is01 {N : ℕ} (A : ZMat N) : Prop := ∀ i j, A i j = 0 ∨ A i j = 1

/-- The 0/1 matrix is transitively closed. -/
abbrev IsTransClosed {N : ℕ} (A : ZMat N) : Prop :=
  ∀ i j k, A i j = 1 → A j k = 1 → A i k = 1

theorem walk_one {N : ℕ} (A : ZMat N) (i j : Fin N) :
    Walk A 1 i j ↔ A i j ≠ 0 := by
  constructor
  · rintro ⟨k, hk, he⟩
    rw [show i = k from hk]
    exact he
  · intro h
    exact ⟨i, rfl, h⟩

theorem walk_concat {N : ℕ} (A : ZMat N) :
    ∀ (b a : ℕ) (i k j : Fin N), Walk A a i k → Walk A b k j → Walk A (a + b) i j := by
  intro b
  induction b with
  | zero =>
    intro a i k j h1 h2
    rw [show k = j from h2] at h1
    exact h1
  | succ b ih =>
    rintro a i k j h1 ⟨m, hm, he⟩
    exact ⟨m, ih a i k m h1 hm, he⟩

theorem walk_to_fun {N : ℕ} (A : ZMat N) :
    ∀ (s : ℕ) (i j : Fin N), Walk A s i j →
      ∃ w : ℕ → Fin N, w 0 = i ∧ w s = j ∧ ∀ t, t < s → A (w t) (w (t + 1)) ≠ 0 := by
  intro s
  induction s with
  | zero =>
    intro i j h
    exact ⟨fun _ => i, rfl, (show i = j from h) ▸ rfl, fun t ht => absurd ht (Nat.not_lt_zero t)⟩
  | succ s ih =>
    rintro i j ⟨k, hk, he⟩
    obtain ⟨w, hw0, hws, hwe⟩ := ih i k hk
    refine ⟨fun t => if t ≤ s then w t else j, by simpa using hw0, by simp, ?_⟩
    intro t ht
    rcases Nat.lt_succ_iff_lt_or_eq.mp ht with ht' | ht'
    · have h1 : t ≤ s := Nat.le_of_lt ht'
      have h2 : t + 1 ≤ s := ht'
      simpa [h1, h2] using hwe t ht'
    · subst ht'
      have h1 : t ≤ t := le_refl t
      have h2 : ¬ (t + 1 ≤ t) := Nat.not_succ_le_self t
      simpa [h1, h2, hws] using he

theorem fun_to_walk {N : ℕ} (A : ZMat N) :
    ∀ (s : ℕ) (w : ℕ → Fin N), (∀ t, t < s → A (w t) (w (t + 1)) ≠ 0) →
      Walk A s (w 0) (w s) := by
  intro s
  induction s with
  | zero => exact fun w _ => rfl
  | succ s ih =>
    intro w hw
    exact ⟨w s, ih w (fun t ht => hw t (Nat.lt_succ_of_lt ht)), hw s (Nat.lt_succ_self s)⟩

/-- Pigeonhole: a walk of length at least `N` on `N` nodes revisits a node,
so it contains a closed walk of length between 1 and `N`. -/
theorem exists_short_closed {N : ℕ} (A : ZMat N) (s : ℕ) (i j : Fin N)
    (hs : N ≤ s) (hw : Walk A s i j) :
    ∃ (x : Fin N) (u : ℕ), 1 ≤ u ∧ u ≤ N ∧ Walk A u x x := by
  obtain ⟨w, _, _, hwe⟩ := walk_to_fun A s i j hw
  have hcard : Fintype.card (Fin N) < Fintype.card (Fin (N + 1)) := by
    simp [Fintype.card_fin]
  obtain ⟨a, b, hab, heq⟩ :=
    Fintype.exists_ne_map_eq_of_card_lt (fun t : Fin (N + 1) => w t.val) hcard
  rcases Ne.lt_or_lt hab with h | h
  case _ =>
    refine ⟨w a.val, b.val - a.val, ?_, ?_, ?_⟩
    · omega
    · omega
    · have hwalk := fun_to_walk A (b.val - a.val) (fun t => w (a.val + t)) ?_
      · have h0 : a.val + 0 = a.val := rfl
        have hb : a.val + (b.val - a.val) = b.val := by omega
        rw [h0, hb] at hwalk
        rw [show w a.val = w b.val from heq] at hwalk ⊢
        exact hwalk
      · intro t ht
        have : a.val + t < s := by omega
        have := hwe (a.val + t) this
        simpa [Nat.add_assoc] using this
  case _ =>
    refine ⟨w b.val, a.val - b.val, ?_, ?_, ?_⟩
    · omega
    · omega
    · have hwalk := fun_to_walk A (a.val - b.val) (fun t => w (b.val + t)) ?_
      · have h0 : b.val + 0 = b.val := rfl
        have hb : b.val + (a.val - b.val) = a.val := by omega
        rw [h0, hb] at hwalk
        rw [show w b.val = w a.val from heq.symm] at hwalk ⊢
        exact hwalk
      · intro t ht
        have : b.val + t < s := by omega
        have := hwe (b.val + t) this
        simpa [Nat.add_assoc] using this

/-- A DAG on `N` nodes has no walk of length `N` or more. -/
theorem no_long_walk {N : ℕ} (A : ZMat N) (h : IsDag A) (s : ℕ) (hs : N ≤ s)
    (i j : Fin N) : ¬ Walk A s i j := by
  intro hw
  obtain ⟨x, u, hu1, _, hux⟩ := exists_short_closed A s i j hs hw
  exact h x u hu1 hux

/-- Closed walks of length up to `N` suffice to detect a cycle, which makes
`IsDag` checkable on concrete matrices. -/
theorem isDag_of_bounded {N : ℕ} (A : ZMat N)
    (h : ∀ (i : Fin N) (s : ℕ), 1 ≤ s → s ≤ N → ¬ Walk A s i i) : IsDag A := by
  intro i s hs hw
  rcases le_or_lt s N with hsN | hsN
  · exact h i s hs hsN hw
  · obtain ⟨x, u, hu1, huN, hux⟩ := exists_short_closed A s i i (le_of_lt hsN) hw
    exact h x u hu1 huN hux

/-- The sequence of matrices computed by the `transitive_completion` loop:
`tcIter A0 t` is the matrix held in `A` after `t` passes. -/
def tcIter {N : ℕ} (A0 : ZMat N) (t : ℕ) : ZMat N := (tcStep A0)^[t] A0

/-- On 0/1 matrices, one completion pass stays 0/1 and its ones are exactly
"a one-step extension of `A` by `A0`, or an `A0` edge". -/
theorem tcStep_spec {N : ℕ} (A0 A : ZMat N) (h0 : Is01 A0) (hA : Is01 A)
    (i j : Fin N) :
    (tcStep A0 A i j = 0 ∨ tcStep A0 A i j = 1) ∧
      (tcStep A0 A i j = 1 ↔ (∃ k, A i k = 1 ∧ A0 k j = 1) ∨ A0 i j = 1) := by
  have hterm : ∀ k, (0 : ℤ) ≤ A i k * A0 k j := by
    intro k
    rcases hA i k with h | h <;> rcases h0 k j with h' | h' <;> simp [h, h']
  have hS : 0 ≤ ∑ k, A i k * A0 k j := Finset.sum_nonneg fun k _ => hterm k
  have hA0 : 0 ≤ A0 i j := by rcases h0 i j with h | h <;> simp [h]
  have hpos : (1 ≤ (∑ k, A i k * A0 k j) + A0 i j) ↔
      ((∃ k, A i k = 1 ∧ A0 k j = 1) ∨ A0 i j = 1) := by
    constructor
    · intro h
      by_contra hc
      push_neg at hc
      obtain ⟨hc1, hc2⟩ := hc
      have hS0 : ∑ k, A i k * A0 k j = 0 := by
        apply Finset.sum_eq_zero
        intro k _
        rcases hA i k with h1 | h1
        · simp [h1]
        · rcases h0 k j with h2 | h2
          · simp [h2]
          · exact absurd h2 (hc1 k h1)
      have hz : A0 i j = 0 := by
        rcases h0 i j with h2 | h2
        · exact h2
        · exact absurd h2 hc2
      rw [hS0, hz] at h
      omega
    · intro h
      rcases h with ⟨k, hk1, hk2⟩ | h
      · have h1 : (1 : ℤ) ≤ ∑ k, A i k * A0 k j := by
          have hle := Finset.single_le_sum (f := fun k => A i k * A0 k j)
            (fun k _ => hterm k) (Finset.mem_univ k)
          simpa [hk1, hk2] using hle
        omega
      · rw [h]
        omega
  simp only [tcStep]
  by_cases hgt : ((∑ k, A i k * A0 k j) + A0 i j) > 1
  · rw [if_pos hgt]
    constructor
    · right
      rfl
    · simp only [true_iff, eq_self_iff_true]
      exact hpos.mp (by omega)
  · rw [if_neg hgt]
    constructor
    · omega
    · constructor
      · intro h
        exact hpos.mp (by omega)
      · intro h
        have := hpos.mpr h
        omega

/-- Two 0/1 matrices with the same ones are equal. -/
theorem eq_of_is01_iff {N : ℕ} (X Y : ZMat N) (hX : Is01 X) (hY : Is01 Y)
    (h : ∀ i j, X i j = 1 ↔ Y i j = 1) : X = Y := by
  funext i j
  rcases hX i j with h1 | h1 <;> rcases hY i j with h2 | h2 <;>
    rw [h1, h2]
  · have := (h i j).mpr h2
    omega
  · have := (h i j).mp h1
    omega

/-- After `t` passes of the completion loop the matrix is 0/1 and its ones
are the pairs joined by a walk of some length in `[1, t+1]`. -/
theorem tcIter_spec {N : ℕ} (A0 : ZMat N) (h0 : Is01 A0) :
    ∀ t, Is01 (tcIter A0 t) ∧
      ∀ i j, (tcIter A0 t i j = 1 ↔ ∃ s, 1 ≤ s ∧ s ≤ t + 1 ∧ Walk A0 s i j) := by
  intro t
  induction t with
  | zero =>
    constructor
    · simpa [tcIter] using h0
    · intro i j
      simp only [tcIter, Function.iterate_zero_apply]
      constructor
      · intro h
        exact ⟨1, le_refl 1, by omega, (walk_one A0 i j).mpr (by rw [h]; exact one_ne_zero)⟩
      · rintro ⟨s, hs1, hs2, hw⟩
        have hseq : s = 1 := by omega
        subst hseq
        have := (walk_one A0 i j).mp hw
        rcases h0 i j with h | h
        · exact absurd h this
        · exact h
  | succ t ih =>
    obtain ⟨ih01, ihchar⟩ := ih
    have hstep : tcIter A0 (t + 1) = tcStep A0 (tcIter A0 t) :=
      Function.iterate_succ_apply' (tcStep A0) t A0
    constructor
    · intro i j
      rw [hstep]
      exact (tcStep_spec A0 (tcIter A0 t) h0 ih01 i j).1
    · intro i j
      rw [hstep, (tcStep_spec A0 (tcIter A0 t) h0 ih01 i j).2]
      constructor
      · rintro (⟨k, hk, he⟩ | he)
        · obtain ⟨s, hs1, hs2, hw⟩ := (ihchar i k).mp hk
          refine ⟨s + 1, by omega, by omega, ⟨k, hw, ?_⟩⟩
          rw [he]
          exact one_ne_zero
        · exact ⟨1, le_refl 1, by omega, (walk_one A0 i j).mpr (by rw [he]; exact one_ne_zero)⟩
      · rintro ⟨s, hs1, hs2, hw⟩
        obtain ⟨s', rfl⟩ : ∃ s', s = s' + 1 := ⟨s - 1, by omega⟩
        obtain ⟨k, hwk, he⟩ := hw
        have hA0kj : A0 k j = 1 := by
          rcases h0 k j with h | h
          · exact absurd h he
          · exact h
        rcases Nat.eq_zero_or_pos s' with hz | hpos
        · subst hz
          right
          rw [show i = k from hwk]
          exact hA0kj
        · left
          exact ⟨k, (ihchar i k).mpr ⟨s', hpos, by omega, hwk⟩, hA0kj⟩

/-- On a DAG input the loop matrix is a fixed point after `N - 1` passes. -/
theorem tcIter_fix {N : ℕ} (A0 : ZMat N) (h0 : Is01 A0) (hd : IsDag A0)
    (hN : 1 ≤ N) : tcStep A0 (tcIter A0 (N - 1)) = tcIter A0 (N - 1) := by
  have hstep : tcStep A0 (tcIter A0 (N - 1)) = tcIter A0 (N - 1 + 1) :=
    (Function.iterate_succ_apply' (tcStep A0) (N - 1) A0).symm
  rw [hstep]
  obtain ⟨h01a, hchara⟩ := tcIter_spec A0 h0 (N - 1 + 1)
  obtain ⟨h01b, hcharb⟩ := tcIter_spec A0 h0 (N - 1)
  apply eq_of_is01_iff _ _ h01a h01b
  intro i j
  rw [hchara i j, hcharb i j]
  constructor
  · rintro ⟨s, hs1, hs2, hw⟩
    refine ⟨s, hs1, ?_, hw⟩
    by_contra hc
    exact no_long_walk A0 hd s (by omega) i j hw
  · rintro ⟨s, hs1, hs2, hw⟩
    exact ⟨s, hs1, by omega, hw⟩

/-- Once the loop matrix is a fixed point, it stays there. -/
theorem tcIter_persist {N : ℕ} (A0 : ZMat N) (t0 : ℕ)
    (hfix : tcStep A0 (tcIter A0 t0) = tcIter A0 t0) :
    ∀ u, t0 ≤ u → tcIter A0 u = tcIter A0 t0 := by
  intro u hu
  have : tcIter A0 u = (tcStep A0)^[u - t0] (tcIter A0 t0) := by
    unfold tcIter
    rw [← Function.iterate_add_apply]
    congr 1
    omega
  rw [this, Function.iterate_fixed hfix]

/-- Running the loop from pass `t` with the counter at `t`: if the first
fixed point is reached at pass `t0 < N`, the loop returns it normally. -/
theorem tcLoop_run {N : ℕ} (A : ZMat N) (t0 : ℕ)
    (hfix : tcStep A (tcIter A t0) = tcIter A t0)
    (hmin : ∀ u, u < t0 → tcStep A (tcIter A u) ≠ tcIter A u)
    (ht0 : t0 < N) :
    ∀ (fuel t : ℕ), t ≤ t0 → t0 - t < fuel →
      tcLoop A (tcIter A t) t fuel = some (tcIter A t0) := by
  intro fuel
  induction fuel with
  | zero =>
    intro t h1 h2
    omega
  | succ fuel ih =>
    intro t h1 h2
    simp only [tcLoop]
    have hNt : ¬ (N ≤ t) := by omega
    rw [if_neg hNt]
    by_cases heq : t = t0
    · subst heq
      rw [if_pos hfix, hfix]
    · have hlt : t < t0 := by omega
      rw [if_neg (hmin t hlt)]
      have hnext : tcStep A (tcIter A t) = tcIter A (t + 1) :=
        (Function.iterate_succ_apply' (tcStep A) t A).symm
      rw [hnext]
      exact ih (t + 1) (by omega) (by omega)

/-- Comprehensive behaviour of `transitive_completion` on an acyclic 0/1
input with at least one node: it returns normally (the `assert` never
fires), the result is a fixed point of the completion step, is 0/1, and its
ones are exactly the pairs joined by a directed walk — the strict transitive
closure. -/
theorem transitive_completion_dag {N : ℕ} (A : ZMat N) (h0 : Is01 A)
    (hd : IsDag A) (hN : 1 ≤ N) :
    ∃ T, transitive_completion A = some T ∧ tcStep A T = T ∧ Is01 T ∧
      ∀ i j, (T i j = 1 ↔ ∃ s, 1 ≤ s ∧ Walk A s i j) := by
  have hex : ∃ t, tcStep A (tcIter A t) = tcIter A t := ⟨N - 1, tcIter_fix A h0 hd hN⟩
  have hfix := Nat.find_spec hex
  have hmin : ∀ u, u < Nat.find hex → tcStep A (tcIter A u) ≠ tcIter A u :=
    fun u hu => Nat.find_min hex hu
  have hle : Nat.find hex ≤ N - 1 := Nat.find_le (tcIter_fix A h0 hd hN)
  have ht0 : Nat.find hex < N := by omega
  refine ⟨tcIter A (Nat.find hex), ?_, hfix, (tcIter_spec A h0 (Nat.find hex)).1, ?_⟩
  · have hrun := tcLoop_run A (Nat.find hex) hfix hmin ht0 (N + 1) 0 (by omega) (by omega)
    have hzero : tcIter A 0 = A := Function.iterate_zero_apply (tcStep A) A
    rw [hzero] at hrun
    exact hrun
  · intro i j
    obtain ⟨h01, hchar⟩ := tcIter_spec A h0 (Nat.find hex)
    rw [hchar i j]
    constructor
    · rintro ⟨s, hs1, _, hw⟩
      exact ⟨s, hs1, hw⟩
    · rintro ⟨s, hs1, hw⟩
      rcases le_or_lt (s - 1) (Nat.find hex) with hcase | hcase
      · exact ⟨s, hs1, by omega, hw⟩
      · have hpersist := tcIter_persist A (Nat.find hex) hfix (s - 1) (by omega)
        have := (tcIter_spec A h0 (s - 1)).2 i j
        rw [hpersist] at this
        rw [hchar i j] at this
        obtain ⟨s', hs1', hs2', hw'⟩ := this.mpr ⟨s, hs1, by omega, hw⟩
        exact ⟨s', hs1', by omega, hw'⟩

/-- The completion loop's result does not depend on the fuel once the fuel
exceeds `N - i`: the `assert` counter bounds the recursion depth, so the
fuelled model is exact (the Python loop always terminates, by returning or
by raising, within `N + 1` passes). -/
theorem tcLoop_fuel {N : ℕ} (A0 : ZMat N) :
    ∀ (f1 f2 : ℕ) (A : ZMat N) (i : ℕ), N - i < f1 → N - i < f2 →
      tcLoop A0 A i f1 = tcLoop A0 A i f2 := by
  intro f1
  induction f1 with
  | zero =>
    intro f2 A i h1 h2
    omega
  | succ f1 ih =>
    intro f2 A i h1 h2
    rcases f2 with _ | f2
    · omega
    · simp only [tcLoop]
      by_cases hN : N ≤ i
      · rw [if_pos hN, if_pos hN]
      · rw [if_neg hN, if_neg hN]
        by_cases heq : tcStep A0 A = A
        · rw [if_pos heq, if_pos heq]
        · rw [if_neg heq, if_neg heq]
          exact ih f2 (tcStep A0 A) (i + 1) (by omega) (by omega)

/-- A concrete 0/1 matrix encoding the 2-node DAG with the single edge
`1 → 0` (that is, `A[1,0] = 1`), used as a witness input below. -/
def edge2Z : ZMat 2 := fun i j => if i.val = 1 ∧ j.val = 0 then 1 else 0

/-- C7 (counterexample): on the cyclic 1-node input `A = [[1]]` (a self
loop), `transitive_completion` does not abort: the assertion never fires and
the call returns the closure `[[1]]` as a normal result. -/
theorem transitive_completion_cyclic_counterexample :
    Walk (fun _ _ => (1 : ℤ) : ZMat 1) 1 0 0 ∧
      transitive_completion (fun _ _ => (1 : ℤ) : ZMat 1) =
        some (fun _ _ => (1 : ℤ)) := by
  constructor
  · decide
  · decide

/-- C7 (amended): `transitive_completion` terminates on every square 0/1
input (the model is exact with fuel `N + 1`, `tcLoop_fuel`); on an acyclic
0/1 input with at least one node it reaches a fixed point of the completion
step within `N` passes and returns it normally, without error. -/
theorem transitive_completion_dag_returns {N : ℕ} (A : ZMat N) (h0 : Is01 A)
    (hd : IsDag A) (hN : 1 ≤ N) :
    ∃ T, transitive_completion A = some T ∧ tcStep A T = T := by
  obtain ⟨T, h1, h2, _, _⟩ := transitive_completion_dag A h0 hd hN
  exact ⟨T, h1, h2⟩

/-- Witness for `transitive_completion_dag_returns` at the concrete 2-node
DAG `edge2Z`. -/
theorem transitive_completion_dag_returns_witness :
    Is01 edge2Z ∧ 1 ≤ 2 ∧
      ∃ T, transitive_completion edge2Z = some T ∧ tcStep edge2Z T = T :=
  ⟨by decide, by decide,
    transitive_completion_dag_returns edge2Z (by decide)
      (isDag_of_bounded edge2Z (by decide)) (by decide)⟩

/-- C5: `transitive_completion` is idempotent on every acyclic 0/1 input:
composing the (fallible) operation with itself gives the same result as one
application — for `N ≥ 1` the closure of the closure is the closure, and for
`N = 0` both computations fail identically. -/
theorem transitive_completion_idempotent {N : ℕ} (A : ZMat N) (h0 : Is01 A)
    (hd : IsDag A) :
    (transitive_completion A).bind transitive_completion =
      transitive_completion A := by
  rcases Nat.eq_zero_or_pos N with hN | hN
  · subst hN
    have hnone : transitive_completion A = none := by
      simp [transitive_completion, tcLoop]
    rw [hnone]
    rfl
  · obtain ⟨T, hT, hfixA, hT01, hTchar⟩ := transitive_completion_dag A h0 hd hN
    rw [hT, Option.some_bind]
    have htrans : ∀ i j k, T i j = 1 → T j k = 1 → T i k = 1 := by
      intro i j k h1 h2
      obtain ⟨a, ha1, hwa⟩ := (hTchar i j).mp h1
      obtain ⟨b, hb1, hwb⟩ := (hTchar j k).mp h2
      exact (hTchar i k).mpr ⟨a + b, by omega, walk_concat A b a i j k hwa hwb⟩
    have hstep : tcStep T T = T := by
      apply eq_of_is01_iff _ _ (fun i j => (tcStep_spec T T hT01 hT01 i j).1) hT01
      intro i j
      rw [(tcStep_spec T T hT01 hT01 i j).2]
      constructor
      · rintro (⟨k, hk1, hk2⟩ | h)
        · exact htrans i k j hk1 hk2
        · exact h
      · intro h
        right
        exact h
    unfold transitive_completion
    simp only [tcLoop]
    rw [if_neg (by omega : ¬ N ≤ 0), if_pos hstep, hstep]

/-- Witness for `transitive_completion_idempotent` at the concrete 2-node
DAG `edge2Z`. -/
theorem transitive_completion_idempotent_witness :
    Is01 edge2Z ∧
      (transitive_completion edge2Z).bind transitive_completion =
        transitive_completion edge2Z :=
  ⟨by decide,
    transitive_completion_idempotent edge2Z (by decide)
      (isDag_of_bounded edge2Z (by decide))⟩

/-- The covering relation (Hasse diagram) of a 0/1 relation: the edges with
no two-step bypass. -/
def covering {N : ℕ} (A : ZMat N) : ZMat N := fun i j =>
  if A i j = 1 ∧ ∀ k, ¬(A i k = 1 ∧ A k j = 1) then 1 else 0

theorem covering_is01 {N : ℕ} (A : ZMat N) : Is01 (covering A) := by
  intro i j
  unfold covering
  by_cases h : A i j = 1 ∧ ∀ k, ¬(A i k = 1 ∧ A k j = 1)
  · right
    rw [if_pos h]
  · left
    rw [if_neg h]

theorem covering_one_iff {N : ℕ} (A : ZMat N) (i j : Fin N) :
    covering A i j = 1 ↔ (A i j = 1 ∧ ∀ k, ¬(A i k = 1 ∧ A k j = 1)) := by
  unfold covering
  by_cases h : A i j = 1 ∧ ∀ k, ¬(A i k = 1 ∧ A k j = 1)
  · rw [if_pos h]
    simp [h]
  · rw [if_neg h]
    constructor
    · intro habs
      exact absurd habs (by norm_num)
    · intro hc
      exact absurd hc h

theorem isDag_irrefl {N : ℕ} (A : ZMat N) (hd : IsDag A) (x : Fin N) :
    A x x ≠ 1 := by
  intro h
  exact hd x 1 (le_refl 1) ((walk_one A x x).mpr (by rw [h]; exact one_ne_zero))

/-- Edge-wise monotone transfer of walks. -/
theorem walk_mono {N : ℕ} (B C : ZMat N)
    (h : ∀ x y, B x y ≠ 0 → C x y ≠ 0) :
    ∀ (s : ℕ) (i j : Fin N), Walk B s i j → Walk C s i j := by
  intro s
  induction s with
  | zero => exact fun i j hw => hw
  | succ s ih =>
    rintro i j ⟨k, hk, he⟩
    exact ⟨k, ih i k hk, h k j he⟩

/-- On 0/1 matrices, one reduction pass stays 0/1 and its ones are exactly
the `A0` edges with no `X`-then-`A0` two-step bypass. -/
theorem trStep_spec {N : ℕ} (A0 X : ZMat N) (h0 : Is01 A0) (hX : Is01 X)
    (i j : Fin N) :
    (trStep A0 X i j = 0 ∨ trStep A0 X i j = 1) ∧
      (trStep A0 X i j = 1 ↔ (A0 i j = 1 ∧ ∀ k, ¬(X i k = 1 ∧ A0 k j = 1))) := by
  have hterm : ∀ k, (0 : ℤ) ≤ X i k * A0 k j := by
    intro k
    rcases hX i k with h | h <;> rcases h0 k j with h' | h' <;> simp [h, h']
  have hS : 0 ≤ ∑ k, X i k * A0 k j := Finset.sum_nonneg fun k _ => hterm k
  have hpos : (1 ≤ ∑ k, X i k * A0 k j) ↔ ∃ k, X i k = 1 ∧ A0 k j = 1 := by
    constructor
    · intro h
      by_contra hc
      push_neg at hc
      have hS0 : ∑ k, X i k * A0 k j = 0 := by
        apply Finset.sum_eq_zero
        intro k _
        rcases hX i k with h1 | h1
        · simp [h1]
        · rcases h0 k j with h2 | h2
          · simp [h2]
          · exact absurd h2 (hc k h1)
      omega
    · rintro ⟨k, hk1, hk2⟩
      have hle := Finset.single_le_sum (f := fun k => X i k * A0 k j)
        (fun k _ => hterm k) (Finset.mem_univ k)
      simpa [hk1, hk2] using hle
  simp only [trStep]
  rcases h0 i j with hz | ho
  · have hlt : A0 i j - (∑ k, X i k * A0 k j) < 1 := by omega
    rw [if_pos hlt]
    constructor
    · left
      rfl
    · constructor
      · intro h
        omega
      · rintro ⟨h, _⟩
        omega
  · by_cases hS1 : 1 ≤ ∑ k, X i k * A0 k j
    · have hlt : A0 i j - (∑ k, X i k * A0 k j) < 1 := by omega
      rw [if_pos hlt]
      constructor
      · left
        rfl
      · constructor
        · intro h
          omega
        · rintro ⟨_, hall⟩
          obtain ⟨k, hk1, hk2⟩ := hpos.mp hS1
          exact absurd ⟨hk1, hk2⟩ (hall k)
    · have hS0 : ∑ k, X i k * A0 k j = 0 := by omega
      have hv : A0 i j - (∑ k, X i k * A0 k j) = 1 := by omega
      rw [if_neg (by omega), if_neg (by omega)]
      constructor
      · right
        exact hv
      · rw [hv]
        constructor
        · intro _
          refine ⟨ho, fun k hk => ?_⟩
          have : 1 ≤ ∑ k, X i k * A0 k j := hpos.mpr ⟨k, hk⟩
          omega
        · intro _
          rfl

/-- The first pass of `transitive_reduction` on a 0/1 input computes the
covering relation. -/
theorem trStep_self {N : ℕ} (A : ZMat N) (h0 : Is01 A) :
    trStep A A = covering A := by
  apply eq_of_is01_iff _ _ (fun i j => (trStep_spec A A h0 h0 i j).1) (covering_is01 A)
  intro i j
  rw [(trStep_spec A A h0 h0 i j).2, covering_one_iff]

/-- The open interval of the relation between `j` and `i` (the two-step
intermediates). -/
def between {N : ℕ} (A : ZMat N) (i j : Fin N) : Finset (Fin N) :=
  Finset.univ.filter fun x => A i x = 1 ∧ A x j = 1

theorem mem_between {N : ℕ} (A : ZMat N) (i j x : Fin N) :
    x ∈ between A i j ↔ A i x = 1 ∧ A x j = 1 := by
  simp [between]

/-- In a transitively closed DAG, every edge admits a first step along a
covering edge: if `A i m = 1` then some `k` with `covering A i k = 1`
satisfies `k = m` or `A k m = 1`. -/
theorem exists_covering_step {N : ℕ} (A : ZMat N) (h0 : Is01 A)
    (ht : IsTransClosed A) (hd : IsDag A) :
    ∀ (n : ℕ) (i m : Fin N), (between A i m).card ≤ n → A i m = 1 →
      ∃ k, covering A i k = 1 ∧ (k = m ∨ A k m = 1) := by
  intro n
  induction n with
  | zero =>
    intro i m hcard him
    have hempty : between A i m = ∅ := Finset.card_eq_zero.mp (by omega)
    refine ⟨m, ?_, Or.inl rfl⟩
    rw [covering_one_iff]
    refine ⟨him, fun k hk => ?_⟩
    have : k ∈ between A i m := (mem_between A i m k).mpr hk
    rw [hempty] at this
    exact absurd this (Finset.not_mem_empty k)
  | succ n ih =>
    intro i m hcard him
    by_cases hcov : covering A i m = 1
    · exact ⟨m, hcov, Or.inl rfl⟩
    · have hex : ∃ x, A i x = 1 ∧ A x m = 1 := by
        by_contra hc
        push_neg at hc
        exact hcov ((covering_one_iff A i m).mpr ⟨him, fun k hk => hc k hk.1 hk.2⟩)
      obtain ⟨x, hx1, hx2⟩ := hex
      have hsub : between A i x ⊆ between A i m := by
        intro y hy
        obtain ⟨hy1, hy2⟩ := (mem_between A i x y).mp hy
        exact (mem_between A i m y).mpr ⟨hy1, ht y x m hy2 hx2⟩
      have hxin : x ∈ between A i m := (mem_between A i m x).mpr ⟨hx1, hx2⟩
      have hxout : x ∉ between A i x := by
        intro hmem
        exact isDag_irrefl A hd x ((mem_between A i x x).mp hmem).2
      have hlt : (between A i x).card < (between A i m).card :=
        Finset.card_lt_card ((Finset.ssubset_iff_of_subset hsub).mpr ⟨x, hxin, hxout⟩)
      obtain ⟨k, hk1, hk2⟩ := ih i x (by omega) hx1
      refine ⟨k, hk1, Or.inr ?_⟩
      rcases hk2 with rfl | hk2
      · exact hx2
      · exact ht k x m hk2 hx2

/-- The covering relation of a transitively closed DAG is a fixed point of
the reduction pass. -/
theorem trStep_covering {N : ℕ} (A : ZMat N) (h0 : Is01 A)
    (ht : IsTransClosed A) (hd : IsDag A) :
    trStep A (covering A) = covering A := by
  apply eq_of_is01_iff _ _
    (fun i j => (trStep_spec A (covering A) h0 (covering_is01 A) i j).1)
    (covering_is01 A)
  intro i j
  rw [(trStep_spec A (covering A) h0 (covering_is01 A) i j).2]
  constructor
  · rintro ⟨hij, hall⟩
    obtain ⟨k, hk1, hk2⟩ :=
      exists_covering_step A h0 ht hd (between A i j).card i j (le_refl _) hij
    rcases hk2 with rfl | hk2
    · exact hk1
    · exact absurd ⟨hk1, hk2⟩ (hall k)
  · intro hcov
    obtain ⟨hij, hnomid⟩ := (covering_one_iff A i j).mp hcov
    refine ⟨hij, fun k hk => ?_⟩
    obtain ⟨hck, hkj⟩ := hk
    have hik : A i k = 1 := ((covering_one_iff A i k).mp hck).1
    exact hnomid k ⟨hik, hkj⟩

/-- Applying `transitive_reduction` (with its default `LP=None`, hence `N` passes) of
a transitively closed DAG with at least one node is its covering relation. -/
theorem transitive_reduction_closed {N : ℕ} (A : ZMat N) (h0 : Is01 A)
    (ht : IsTransClosed A) (hd : IsDag A) (hN : 1 ≤ N) :
    transitive_reduction A none = covering A := by
  show (trStep A)^[N] A = covering A
  obtain ⟨M, rfl⟩ : ∃ M, N = M + 1 := ⟨N - 1, by omega⟩
  rw [Function.iterate_succ_apply, trStep_self A h0,
    Function.iterate_fixed (trStep_covering A h0 ht hd) M]

/-- A walk of positive length along covering edges witnesses an edge of the
transitively closed relation. -/
theorem covering_walk_le {N : ℕ} (A : ZMat N) (h0 : Is01 A)
    (ht : IsTransClosed A) :
    ∀ (s : ℕ) (i j : Fin N), Walk (covering A) (s + 1) i j → A i j = 1 := by
  intro s
  induction s with
  | zero =>
    intro i j hw
    have := (walk_one (covering A) i j).mp hw
    rcases covering_is01 A i j with h | h
    · exact absurd h this
    · exact ((covering_one_iff A i j).mp h).1
  | succ s ih =>
    rintro i j ⟨k, hk, he⟩
    have h1 : A i k = 1 := ih i k hk
    have h2 : A k j = 1 := by
      rcases covering_is01 A k j with h | h
      · exact absurd h he
      · exact ((covering_one_iff A k j).mp h).1
    exact ht i k j h1 h2

/-- Conversely, every edge of a transitively closed DAG is reached by a walk
along covering edges. -/
theorem covering_walk_ge {N : ℕ} (A : ZMat N) (h0 : Is01 A)
    (ht : IsTransClosed A) (hd : IsDag A) :
    ∀ (n : ℕ) (i j : Fin N), (between A i j).card ≤ n → A i j = 1 →
      ∃ s, 1 ≤ s ∧ Walk (covering A) s i j := by
  intro n
  induction n with
  | zero =>
    intro i j hcard hij
    have hempty : between A i j = ∅ := Finset.card_eq_zero.mp (by omega)
    have hcov : covering A i j = 1 := by
      rw [covering_one_iff]
      refine ⟨hij, fun k hk => ?_⟩
      have : k ∈ between A i j := (mem_between A i j k).mpr hk
      rw [hempty] at this
      exact absurd this (Finset.not_mem_empty k)
    exact ⟨1, le_refl 1, (walk_one (covering A) i j).mpr (by rw [hcov]; exact one_ne_zero)⟩
  | succ n ih =>
    intro i j hcard hij
    by_cases hcov : covering A i j = 1
    · exact ⟨1, le_refl 1, (walk_one (covering A) i j).mpr (by rw [hcov]; exact one_ne_zero)⟩
    · have hex : ∃ x, A i x = 1 ∧ A x j = 1 := by
        by_contra hc
        push_neg at hc
        exact hcov ((covering_one_iff A i j).mpr ⟨hij, fun k hk => hc k hk.1 hk.2⟩)
      obtain ⟨m, hm1, hm2⟩ := hex
      have hmin : m ∈ between A i j := (mem_between A i j m).mpr ⟨hm1, hm2⟩
      have hsub1 : between A i m ⊆ between A i j := by
        intro y hy
        obtain ⟨hy1, hy2⟩ := (mem_between A i m y).mp hy
        exact (mem_between A i j y).mpr ⟨hy1, ht y m j hy2 hm2⟩
      have hout1 : m ∉ between A i m :=
        fun hmem => isDag_irrefl A hd m ((mem_between A i m m).mp hmem).2
      have hlt1 : (between A i m).card < (between A i j).card :=
        Finset.card_lt_card ((Finset.ssubset_iff_of_subset hsub1).mpr ⟨m, hmin, hout1⟩)
      have hsub2 : between A m j ⊆ between A i j := by
        intro y hy
        obtain ⟨hy1, hy2⟩ := (mem_between A m j y).mp hy
        exact (mem_between A i j y).mpr ⟨ht i m y hm1 hy1, hy2⟩
      have hout2 : m ∉ between A m j :=
        fun hmem => isDag_irrefl A hd m ((mem_between A m j m).mp hmem).1
      have hlt2 : (between A m j).card < (between A i j).card :=
        Finset.card_lt_card ((Finset.ssubset_iff_of_subset hsub2).mpr ⟨m, hmin, hout2⟩)
      obtain ⟨s1, hs1, hw1⟩ := ih i m (by omega) hm1
      obtain ⟨s2, hs2, hw2⟩ := ih m j (by omega) hm2
      exact ⟨s1 + s2, by omega, walk_concat (covering A) s2 s1 i m j hw1 hw2⟩

/-- C4 (amended): for every transitively closed acyclic 0/1 matrix `A` with
at least one node, `transitive_completion (transitive_reduction A)`
reconstructs `A` (and returns it normally). -/
theorem reduction_completion_inverse {N : ℕ} (A : ZMat N) (h0 : Is01 A)
    (ht : IsTransClosed A) (hd : IsDag A) (hN : 1 ≤ N) :
    transitive_completion (transitive_reduction A none) = some A := by
  rw [transitive_reduction_closed A h0 ht hd hN]
  have hcovdag : IsDag (covering A) := by
    intro i s hs hw
    apply hd i s hs
    refine walk_mono (covering A) A (fun x y hxy => ?_) s i i hw
    rcases covering_is01 A x y with h | h
    · exact absurd h hxy
    · rw [((covering_one_iff A x y).mp h).1]
      exact one_ne_zero
  obtain ⟨T, hT, _, hT01, hTchar⟩ :=
    transitive_completion_dag (covering A) (covering_is01 A) hcovdag hN
  rw [hT]
  refine congrArg some (eq_of_is01_iff T A hT01 h0 fun i j => ?_)
  rw [hTchar i j]
  constructor
  · rintro ⟨s, hs1, hw⟩
    obtain ⟨s', rfl⟩ : ∃ s', s = s' + 1 := ⟨s - 1, by omega⟩
    exact covering_walk_le A h0 ht s' i j hw
  · intro hij
    exact covering_walk_ge A h0 ht hd (between A i j).card i j (le_refl _) hij

/-- C4 (counterexample): on the empty 0×0 matrix — which is vacuously 0/1,
transitively closed and acyclic — the composition fails with the assertion
error instead of reconstructing the input: `transitive_completion` asserts
`i < N` with `N = 0` on its very first pass. -/
theorem reduction_completion_zero_counterexample :
    Is01 (fun _ _ => 0 : ZMat 0) ∧ IsTransClosed (fun _ _ => 0 : ZMat 0) ∧
      IsDag (fun _ _ => 0 : ZMat 0) ∧
      transitive_completion (transitive_reduction (fun _ _ => 0 : ZMat 0) none) =
        none := by
  refine ⟨fun i _ => i.elim0, fun i => i.elim0, fun i => i.elim0, ?_⟩
  rfl

/-- Witness for `reduction_completion_inverse` at the concrete 2-node closed
DAG `edge2Z`. -/
theorem reduction_completion_inverse_witness :
    Is01 edge2Z ∧ IsTransClosed edge2Z ∧ 1 ≤ 2 ∧
      transitive_completion (transitive_reduction edge2Z none) = some edge2Z :=
  ⟨by decide, by decide, by decide,
    reduction_completion_inverse edge2Z (by decide) (by decide)
      (isDag_of_bounded edge2Z (by decide)) (by decide)⟩

/-- The `while np.sum(B) > 0` loop of `longest_path_matrix` (dagsep.py lines
21-33, matrix_utils.py lines 88-102) as explicit state passing.  State:
`LPm` (the accumulated longest-path matrix), `B` (the current power of `A`),
`i` (the current path length), and the cutoff.  One pass: if the total of
`B` is positive, accumulate `LP ← max(LP, i·sign(B))` elementwise, advance
`B ← B·A` and `i ← i+1`, and return early when `i` has reached the cutoff;
otherwise return `LP`.  The cutoff test `cut = some (i+1)` is the source's
`i == dmax` after the increment.  `none` models divergence (the Python loop
never terminates on an input whose powers never vanish when no cutoff
applies); the wrappers below supply enough fuel for every terminating
execution. -/
def lpLoop {N : ℕ} (A : NMat N) : NMat N → NMat N → ℕ → Option ℕ → ℕ → Option (NMat N)
  | _, _, _, _, 0 => none
  | LPm, B, i, cut, fuel + 1 =>
    if 0 < ∑ p : Fin N × Fin N, B p.1 p.2 then
      let LP2 : NMat N := fun x y => max (LPm x y) (i * if B x y = 0 then 0 else 1)
      let B2 : NMat N := fun x y => ∑ k, B x k * A k y
      if cut = some (i + 1) then some LP2
      else lpLoop A LP2 B2 (i + 1) cut fuel
    else some LPm

/-- Python truthiness of the `dmax and (i == dmax)` guard in dagsep.py line
31: `None` and `0` disable the cutoff entirely. -/
def truthyCut (dmax : Option ℕ) : Option ℕ :=
  match dmax with
  | none => none
  | some d => if d = 0 then none else some d

/-- Model of `longest_path_matrix(A, dmax=None)` (dagsep.py lines 4-33): start from
`LP = 0`, `B = A`, `i = 1`.  Fuel `N + 1 + dmax` covers every terminating
run: the natural exit happens within `N` passes once a power of `A`
vanishes, and the cutoff exit within `dmax` passes. -/
def longest_path_matrix {N : ℕ} (A : NMat N) (dmax : Option ℕ := none) :
    Option (NMat N) :=
  lpLoop A (fun _ _ => 0) A 1 (truthyCut dmax) (N + 1 + dmax.getD 0)

/-- Model of `longest_path_matrix(A, dmax=None)` (matrix_utils.py lines 71-102): same
loop, but `dmax` defaults to `N` and the cutoff test `i == dmax` is applied
without a truthiness guard. -/
def longest_path_matrixMU {N : ℕ} (A : NMat N) (dmax : Option ℕ := none) :
    Option (NMat N) :=
  lpLoop A (fun _ _ => 0) A 1 (some (dmax.getD N)) (N + 1 + dmax.getD N)

/-- One-pass unfolding of `lpLoop`, for rewriting. -/
theorem lpLoop_succ {N : ℕ} (A LPm B : NMat N) (i : ℕ) (cut : Option ℕ)
    (fuel : ℕ) :
    lpLoop A LPm B i cut (fuel + 1) =
      if 0 < ∑ p : Fin N × Fin N, B p.1 p.2 then
        (if cut = some (i + 1) then
          some (fun x y => max (LPm x y) (i * if B x y = 0 then 0 else 1))
        else
          lpLoop A (fun x y => max (LPm x y) (i * if B x y = 0 then 0 else 1))
            (fun x y => ∑ k, B x k * A k y) (i + 1) cut fuel)
      else some LPm := rfl

/-- The 2-node adjacency matrix `A = [[0,0],[1,0]]` of the spec's C1 example
(`A[1][0] = 1`). -/
def edge2N : NMat 2 := fun i j => if i.val = 1 ∧ j.val = 0 then 1 else 0

/-- C1 (counterexample): on `A = [[0,0],[1,0]]`, `longest_path_matrix`
(both implementations) returns `LP` with `LP[0][1] = 0`, not `1` as the
claim states. -/
theorem longest_path_2node_counterexample :
    (longest_path_matrix edge2N none).map (fun M => M 0 1) = some 0 ∧
      (longest_path_matrixMU edge2N none).map (fun M => M 0 1) = some 0 ∧
      (0 : ℕ) ≠ 1 := by
  refine ⟨?_, ?_, ?_⟩
  · decide
  · decide
  · decide

/-- C1 (amended): on `A = [[0,0],[1,0]]`, `longest_path_matrix` (both
implementations) returns the matrix with `LP[1][0] = 1` and all other
entries 0 (the claim's indices transposed). -/
theorem longest_path_2node :
    (longest_path_matrix edge2N none).map (fun M => (M 0 0, M 0 1, M 1 0, M 1 1)) =
        some (0, 0, 1, 0) ∧
      (longest_path_matrixMU edge2N none).map (fun M => (M 0 0, M 0 1, M 1 0, M 1 1)) =
        some (0, 0, 1, 0) := by
  constructor
  · decide
  · decide

/-- The directed path graph on `N` nodes: an edge `j → j+1` for each `j`,
stored as `A[j+1][j] = 1`. -/
def pathA (N : ℕ) : NMat N := fun i j => if i.val = j.val + 1 then 1 else 0

/-- The boolean power of the path graph: `A^t` has a 1 exactly at the pairs
`(y + t, y)`. -/
def pathPow (N t : ℕ) : NMat N := fun i j => if i.val = j.val + t then 1 else 0

/-- The longest-path matrix of the path graph with lengths recorded only up
to `t`: pairs further apart than `t` stay 0. -/
def lpPartial (N t : ℕ) : NMat N := fun x y =>
  if y.val < x.val ∧ x.val - y.val ≤ t then x.val - y.val else 0

theorem pathPow_mul (N t : ℕ) (x y : Fin N) :
    (∑ k, pathPow N t x k * pathA N k y) = pathPow N (t + 1) x y := by
  simp only [pathPow, pathA]
  by_cases hx : x.val = y.val + (t + 1)
  · have hy1 : y.val + 1 < N := by
      have := x.isLt
      omega
    rw [if_pos hx, Finset.sum_eq_single (⟨y.val + 1, hy1⟩ : Fin N)]
    · rw [if_pos (by simp; omega), if_pos (by simp)]
    · intro k _ hk
      rw [if_neg (fun h : k.val = y.val + 1 => hk (Fin.ext h)), mul_zero]
    · intro h
      exact absurd (Finset.mem_univ _) h
  · rw [if_neg hx]
    apply Finset.sum_eq_zero
    intro k _
    by_cases hk : k.val = y.val + 1
    · rw [if_neg (by omega : ¬ x.val = k.val + t), zero_mul]
    · rw [if_neg hk, mul_zero]

theorem pathPow_sum_pos (N t : ℕ) :
    (0 < ∑ p : Fin N × Fin N, pathPow N t p.1 p.2) ↔ t < N := by
  constructor
  · intro hpos
    by_contra hc
    push_neg at hc
    have hz : ∑ p : Fin N × Fin N, pathPow N t p.1 p.2 = 0 := by
      apply Finset.sum_eq_zero
      intro p _
      have := p.1.isLt
      simp only [pathPow]
      rw [if_neg (by omega)]
    omega
  · intro ht
    have hN : 0 < N := by omega
    have hle : pathPow N t ⟨t, ht⟩ ⟨0, hN⟩ ≤ ∑ p : Fin N × Fin N, pathPow N t p.1 p.2 :=
      Finset.single_le_sum (f := fun p : Fin N × Fin N => pathPow N t p.1 p.2)
        (fun p _ => Nat.zero_le _) (Finset.mem_univ ((⟨t, ht⟩ : Fin N), (⟨0, hN⟩ : Fin N)))
    have hone : pathPow N t ⟨t, ht⟩ ⟨0, hN⟩ = 1 := by simp [pathPow]
    omega

theorem lpUpdate (N t : ℕ) :
    (fun x y => max (lpPartial N t x y) ((t + 1) * if pathPow N (t + 1) x y = 0 then 0 else 1)) =
      lpPartial N (t + 1) := by
  funext x y
  have hxN := x.isLt
  have hyN := y.isLt
  simp only [lpPartial, pathPow]
  split_ifs <;>
    first
      | contradiction
      | (simp only [Nat.mul_zero, Nat.mul_one, Nat.zero_max, Nat.max_zero]; omega)
      | omega

theorem lpPartial_congr (N a b : ℕ) (ha : N - 1 ≤ a) (hb : N - 1 ≤ b) :
    lpPartial N a = lpPartial N b := by
  funext x y
  have hx := x.isLt
  simp only [lpPartial]
  by_cases h1 : y.val < x.val
  · rw [if_pos (by omega), if_pos (by omega)]
  · rw [if_neg (by omega), if_neg (by omega)]

theorem lpLoop_path (N k : ℕ) (hk : 2 ≤ k) :
    ∀ (fuel t : ℕ), t ≤ k - 2 → t ≤ N - 1 → min (k - 2) (N - 1) - t < fuel →
      lpLoop (pathA N) (lpPartial N t) (pathPow N (t + 1)) (t + 1) (some k) fuel =
        some (lpPartial N (k - 1)) := by
  intro fuel
  induction fuel with
  | zero =>
    intro t h1 h2 h3
    omega
  | succ fuel ih =>
    intro t h1 h2 h3
    rw [lpLoop_succ]
    by_cases hpos : 0 < ∑ p : Fin N × Fin N, pathPow N (t + 1) p.1 p.2
    · rw [if_pos hpos]
      have htN : t + 1 < N := (pathPow_sum_pos N (t + 1)).mp hpos
      have hB2 : (fun x y => ∑ kk, pathPow N (t + 1) x kk * pathA N kk y) =
          pathPow N (t + 2) := by
        funext x y
        exact pathPow_mul N (t + 1) x y
      rw [lpUpdate N t, hB2]
      by_cases hcut : (some k : Option ℕ) = some (t + 1 + 1)
      · rw [if_pos hcut]
        have hkeq : k = t + 2 := Option.some_injective ℕ hcut
        rw [show k - 1 = t + 1 from by omega]
      · rw [if_neg hcut]
        have hkne : k ≠ t + 2 := fun h => hcut (by rw [h])
        exact ih (t + 1) (by omega) (by omega) (by omega)
    · rw [if_neg hpos]
      have htN : ¬ (t + 1 < N) := fun h => hpos ((pathPow_sum_pos N (t + 1)).mpr h)
      exact congrArg some (lpPartial_congr N t (k - 1) (by omega) (by omega))

/-- C2 (amended): on the `N`-node path graph with an explicit cutoff
`dmax = k ≥ 2`, `longest_path_matrix` records every longest-path length up
to `k - 1` exactly, and every pair whose true length is `k` or more gets
`0` — not `k`.  (With `k ≤ 1` the `dmax and (i == dmax)` guard never fires
and the full matrix is returned, see the counterexample.) -/
theorem longest_path_cutoff_path_graph (N k : ℕ) (hk : 2 ≤ k) :
    longest_path_matrix (pathA N) (some k) = some (lpPartial N (k - 1)) := by
  unfold longest_path_matrix
  have hcut : truthyCut (some k) = some k := by
    simp only [truthyCut]
    rw [if_neg (by omega : ¬ k = 0)]
  rw [hcut]
  have h0 : (fun _ _ => 0 : NMat N) = lpPartial N 0 := by
    funext x y
    simp only [lpPartial]
    rw [if_neg (by omega)]
  have hA : pathA N = pathPow N 1 := rfl
  rw [h0, hA]
  exact lpLoop_path N k hk (N + 1 + (some k : Option ℕ).getD 0) 0 (by omega) (by omega)
    (by simp only [Option.getD]; omega)

/-- Witness for `longest_path_cutoff_path_graph`: the 4-node path graph with
cutoff 2. -/
theorem longest_path_cutoff_path_graph_witness :
    2 ≤ 2 ∧ longest_path_matrix (pathA 4) (some 2) = some (lpPartial 4 1) :=
  ⟨by decide, longest_path_cutoff_path_graph 4 2 (by decide)⟩

/-- C2 (counterexample): the 3-node path graph has true diameter 2; with the
positive cutoff `dmax = 1` (smaller than the diameter) the claim demands
`LP[2][0] = 1`, but the code returns the full value `2` — the guard
`dmax and (i == dmax)` can never fire for `dmax = 1` because the test runs
after `i` was incremented past 1. -/
theorem longest_path_cutoff_counterexample :
    (longest_path_matrix (pathA 3) (some 1)).map (fun M => M 2 0) = some 2 ∧
      (2 : ℕ) ≠ 1 := by
  constructor
  · decide
  · decide

/-- Model of `np.max(LP)`, the default `dmax` of both separation estimators.  `np.max`
raises on an empty array; the model folds `max` from 0, which agrees with
`np.max` for every matrix with at least one nonnegative entry (in particular
every longest-path matrix with `N ≥ 1`). -/
def npMax {N : ℕ} (LP : QMat N) : ℚ :=
  Finset.univ.fold max 0 (fun p : Fin N × Fin N => LP p.1 p.2)

/-- Initial `ds2 = ds * ds * -1` with `ds = LP + LP.transpose()` (dagsep.py lines
49-50 and 91-92, matrix_utils.py lines 121-122). -/
def ds2Init {N : ℕ} (LP : QMat N) : QMat N := fun i j =>
  ((LP i j + LP j i) * (LP i j + LP j i)) * (-1)

/-- Set `w_list = intersect1d(flatnonzero(LP[:,i]), flatnonzero(LP[:,j]))`
(dagsep.py lines 58-60): rows with a nonzero entry in both columns. -/
def wList {N : ℕ} (LP : QMat N) (i j : Fin N) : Finset (Fin N) :=
  Finset.univ.filter fun w => LP w i ≠ 0 ∧ LP w j ≠ 0

/-- Set `z_list = intersect1d(flatnonzero(LP[i,:]), flatnonzero(LP[j,:]))`
(dagsep.py lines 62-64): columns with a nonzero entry in both rows. -/
def zList {N : ℕ} (LP : QMat N) (i j : Fin N) : Finset (Fin N) :=
  Finset.univ.filter fun z => LP i z ≠ 0 ∧ LP j z ≠ 0

/-- The naive estimator's `sp_dist` for one spacelike pair (dagsep.py lines
65-74): when both boundary sets are nonempty, the minimum over the strictly
positive `LP[w,z]` starting from `dmax`; otherwise `dmax`. -/
def spDistNaive {N : ℕ} (LP : QMat N) (dm : ℚ) (i j : Fin N) : ℚ :=
  if (zList LP i j).Nonempty ∧ (wList LP i j).Nonempty then
    (((wList LP i j) ×ˢ (zList LP i j)).filter fun p => 0 < LP p.1 p.2).fold min dm
      (fun p => LP p.1 p.2)
  else dm

/-- Set `two_link_future = intersect1d(np.where(LP[:,i]==1)[0],
np.where(LP[:,j]==1)[0])` (dagsep.py lines 99-101). -/
def twoLinkFuture {N : ℕ} (LP : QMat N) (i j : Fin N) : Finset (Fin N) :=
  Finset.univ.filter fun x => LP x i = 1 ∧ LP x j = 1

/-- Set `link_past = intersect1d(flatnonzero(LP[:,i]), flatnonzero(LP[:,j]))`
(dagsep.py lines 102-104; note the source reads columns here, exactly like
`w_list` of the naive estimator). -/
def linkPast {N : ℕ} (LP : QMat N) (i j : Fin N) : Finset (Fin N) :=
  Finset.univ.filter fun x => LP x i ≠ 0 ∧ LP x j ≠ 0

/-- The two-link estimator's per-`w` minimum (dagsep.py lines 110-114):
`sp_dist = dmax` then `min` over the strictly positive `LP[w,z]`,
`z ∈ link_past`. -/
def spDistW {N : ℕ} (LP : QMat N) (dm : ℚ) (w : Fin N) (zs : Finset (Fin N)) : ℚ :=
  (zs.filter fun z => 0 < LP w z).fold min dm fun z => LP w z

/-- The two-link estimator's averaged distance for one spacelike pair
(dagsep.py lines 106-118): the mean of the per-`w` minima over the mutual
two-link future, or `dmax` when that set is empty. -/
def avTwoLink {N : ℕ} (LP : QMat N) (dm : ℚ) (i j : Fin N) : ℚ :=
  if (twoLinkFuture LP i j).Nonempty then
    (∑ w ∈ twoLinkFuture LP i j, spDistW LP dm w (linkPast LP i j)) /
      (twoLinkFuture LP i j).card
  else dm

/-- One pass of the pair loop shared by both estimators (dagsep.py lines
56 and 76-77, 97 and 119-120): if `ds2[i,j] == 0` for the current pair,
write `v i j` into both `ds2[i,j]` and `ds2[j,i]`; otherwise leave `ds2`
unchanged.  The written value depends only on `LP` and `dmax`, never on
`ds2`, exactly as in the source. -/
def symmUpdate {N : ℕ} (v : Fin N → Fin N → ℚ) (ds2 : QMat N)
    (p : Fin N × Fin N) : QMat N :=
  if ds2 p.1 p.2 = 0 then
    fun a b => if (a = p.1 ∧ b = p.2) ∨ (a = p.2 ∧ b = p.1) then v p.1 p.2 else ds2 a b
  else ds2

/-- The pair ordering of dagsep.py lines 52-54 and 94-96: `i` ascending, and
for each `i` every `j` with `j < i` ascending (`for i in range(N): for j in
range(N): if i > j`). -/
def pairsDS (N : ℕ) : List (Fin N × Fin N) :=
  (List.finRange N).flatMap fun i =>
    ((List.finRange N).filter fun j => j < i).map fun j => (i, j)

/-- Value `max_j` of matrix_utils.py lines 125-127: `i` when the landmark count
`k` is falsy (`None` or `0`), else `min(i, k)`. -/
def maxJ (k : Option ℕ) (i : ℕ) : ℕ :=
  match k with
  | none => i
  | some m => if m = 0 then i else min i m

/-- The pair ordering of matrix_utils.py lines 124-128: `for j in
range(max_j)`. -/
def pairsMU (N : ℕ) (k : Option ℕ) : List (Fin N × Fin N) :=
  (List.finRange N).flatMap fun i =>
    ((List.finRange N).filter fun j => j.val < maxJ k i.val).map fun j => (i, j)

/-- Model of `naive_spacelike_matrix(LP, dmax=None)` (dagsep.py lines 35-78). -/
def naive_spacelike_matrix {N : ℕ} (LP : QMat N) (dmax : Option ℚ := none) :
    QMat N :=
  let dm := dmax.getD (npMax LP)
  (pairsDS N).foldl
    (symmUpdate fun i j => spDistNaive LP dm i j * spDistNaive LP dm i j)
    (ds2Init LP)

/-- Model of `naive_spacelike_matrix(LP, dmax=None, k=None)` (matrix_utils.py lines
104-152): identical body, with the pair loop restricted to `j < max_j`. -/
def naive_spacelike_matrixMU {N : ℕ} (LP : QMat N) (dmax : Option ℚ := none)
    (k : Option ℕ := none) : QMat N :=
  let dm := dmax.getD (npMax LP)
  (pairsMU N k).foldl
    (symmUpdate fun i j => spDistNaive LP dm i j * spDistNaive LP dm i j)
    (ds2Init LP)

/-- Model of `twolink_spacelike_matrix(LP, dmax=None)` (dagsep.py lines 80-121). -/
def twolink_spacelike_matrix {N : ℕ} (LP : QMat N) (dmax : Option ℚ := none) :
    QMat N :=
  let dm := dmax.getD (npMax LP)
  (pairsDS N).foldl (symmUpdate fun i j => avTwoLink LP dm i j ^ 2) (ds2Init LP)

theorem mem_pairsDS {N : ℕ} (a b : Fin N) : (a, b) ∈ pairsDS N ↔ b < a := by
  simp only [pairsDS, List.mem_flatMap, List.mem_map, List.mem_filter,
    List.mem_finRange, true_and]
  constructor
  · rintro ⟨i, ⟨j, hj, hij⟩⟩
    obtain ⟨h1, h2⟩ := Prod.mk.injEq .. ▸ hij
    subst h1
    subst h2
    simpa using hj
  · intro h
    exact ⟨a, ⟨b, by simpa using h, rfl⟩⟩

theorem pairsDS_sndlt {N : ℕ} : ∀ q ∈ pairsDS N, q.2 < q.1 := by
  rintro ⟨a, b⟩ hq
  exact (mem_pairsDS a b).mp hq

theorem maxJ_le (k : Option ℕ) (i : ℕ) : maxJ k i ≤ i := by
  rcases k with _ | m
  · exact le_refl i
  · simp only [maxJ]
    by_cases hm : m = 0
    · rw [if_pos hm]
    · rw [if_neg hm]
      exact min_le_left i m

theorem pairsMU_sndlt {N : ℕ} (k : Option ℕ) : ∀ q ∈ pairsMU N k, q.2 < q.1 := by
  intro q hq
  simp only [pairsMU, List.mem_flatMap, List.mem_map, List.mem_filter,
    List.mem_finRange, true_and] at hq
  obtain ⟨i, j, hj, hij⟩ := hq
  subst hij
  have hle := maxJ_le k i.val
  have hlt : j.val < maxJ k i.val := by simpa using hj
  show j < i
  rw [Fin.lt_def]
  omega

theorem pairsDS_nodup {N : ℕ} : (pairsDS N).Nodup := by
  unfold pairsDS
  rw [List.nodup_flatMap]
  constructor
  · intro i _
    exact ((List.nodup_finRange N).filter _).map
      (fun j1 j2 h => (Prod.mk.injEq .. ▸ h).2)
  · have hnd := List.nodup_finRange N
    refine List.Pairwise.imp ?_ (List.Nodup.pairwise_of_forall_ne hnd (fun a _ b _ h => h))
    intro i1 i2 hne
    intro p hp1 hp2
    simp only [List.mem_map, List.mem_filter] at hp1 hp2
    obtain ⟨j1, _, he1⟩ := hp1
    obtain ⟨j2, _, he2⟩ := hp2
    have e1 : i1 = p.1 := by rw [← he1]
    have e2 : i2 = p.1 := by rw [← he2]
    exact hne (by rw [e1, e2])

/-- Both pair lists coincide when the landmark restriction is absent. -/
theorem pairsMU_none {N : ℕ} : pairsMU N none = pairsDS N := by
  unfold pairsMU pairsDS
  congr 1

/-- Both pair lists coincide when the landmark count covers all nodes. -/
theorem pairsMU_ge {N : ℕ} (m : ℕ) (hm : N ≤ m) : pairsMU N (some m) = pairsDS N := by
  unfold pairsMU pairsDS
  congr 1
  funext i
  congr 1
  apply List.filter_congr
  intro j _
  show decide (j.val < maxJ (some m) i.val) = decide (j < i)
  have : maxJ (some m) i.val = i.val := by
    simp only [maxJ]
    have := i.isLt
    by_cases hm0 : m = 0
    · rw [if_pos hm0]
    · rw [if_neg hm0]
      exact Nat.min_eq_left (by omega)
  rw [this]
  rfl

theorem symmUpdate_preserve {N : ℕ} (v : Fin N → Fin N → ℚ) (ds2 : QMat N)
    (p : Fin N × Fin N) (a b : Fin N)
    (h1 : ¬(a = p.1 ∧ b = p.2)) (h2 : ¬(a = p.2 ∧ b = p.1)) :
    symmUpdate v ds2 p a b = ds2 a b := by
  unfold symmUpdate
  by_cases hg : ds2 p.1 p.2 = 0
  · rw [if_pos hg]
    exact if_neg fun hc => hc.elim h1 h2
  · rw [if_neg hg]

theorem foldl_symmUpdate_preserve {N : ℕ} (v : Fin N → Fin N → ℚ) (a b : Fin N) :
    ∀ (l : List (Fin N × Fin N)) (ds2 : QMat N),
      (∀ q ∈ l, ¬(a = q.1 ∧ b = q.2) ∧ ¬(a = q.2 ∧ b = q.1)) →
      l.foldl (symmUpdate v) ds2 a b = ds2 a b := by
  intro l
  induction l with
  | nil => exact fun ds2 _ => rfl
  | cons q l ih =>
    intro ds2 h
    rw [List.foldl_cons, ih (symmUpdate v ds2 q)
      (fun q' hq' => h q' (List.mem_cons_of_mem q hq')),
      symmUpdate_preserve v ds2 q a b (h q (List.mem_cons_self q l)).1
        (h q (List.mem_cons_self q l)).2]

theorem foldl_symmUpdate_symm {N : ℕ} (v : Fin N → Fin N → ℚ) :
    ∀ (l : List (Fin N × Fin N)) (ds2 : QMat N),
      (∀ i j, ds2 i j = ds2 j i) →
      ∀ i j, l.foldl (symmUpdate v) ds2 i j = l.foldl (symmUpdate v) ds2 j i := by
  intro l
  induction l with
  | nil => exact fun ds2 h => h
  | cons q l ih =>
    intro ds2 h i j
    rw [List.foldl_cons]
    apply ih
    intro a b
    unfold symmUpdate
    by_cases hg : ds2 q.1 q.2 = 0
    · rw [if_pos hg]
      by_cases hc : (a = q.1 ∧ b = q.2) ∨ (a = q.2 ∧ b = q.1)
      · rw [if_pos hc, if_pos (by tauto)]
      · rw [if_neg hc, if_neg (by tauto)]
        exact h a b
    · rw [if_neg hg]
      exact h a b

/-- Key evaluation lemma for one processed pair `(i, j)` with `j < i`: each
unordered pair occurs at most once in the pair list, the written value does
not depend on the running matrix, and no other pair touches these two
entries, so both final entries are determined by the initial guard. -/
theorem foldl_symmUpdate_eval {N : ℕ} (v : Fin N → Fin N → ℚ) (i j : Fin N)
    (hij : j < i) :
    ∀ (l : List (Fin N × Fin N)) (ds2 : QMat N),
      (i, j) ∈ l → l.Nodup → (∀ q ∈ l, q.2 < q.1) →
      l.foldl (symmUpdate v) ds2 i j = (if ds2 i j = 0 then v i j else ds2 i j) ∧
        l.foldl (symmUpdate v) ds2 j i = (if ds2 i j = 0 then v i j else ds2 j i) := by
  intro l
  induction l with
  | nil =>
    intro ds2 hmem
    exact absurd hmem (List.not_mem_nil _)
  | cons q l ih =>
    intro ds2 hmem hnod hlt
    have hnodl : l.Nodup := (List.nodup_cons.mp hnod).2
    have hql : q ∉ l := (List.nodup_cons.mp hnod).1
    have hltl : ∀ q' ∈ l, q'.2 < q'.1 :=
      fun q' hq' => hlt q' (List.mem_cons_of_mem q hq')
    rcases List.mem_cons.mp hmem with heq | hmem'
    · subst heq
      have hpres1 : ∀ q' ∈ l, ¬(i = q'.1 ∧ j = q'.2) ∧ ¬(i = q'.2 ∧ j = q'.1) := by
        intro q' hq'
        constructor
        · rintro ⟨rfl, rfl⟩
          exact hql hq'
        · rintro ⟨h1, h2⟩
          have := hltl q' hq'
          rw [← h1, ← h2] at this
          exact absurd hij (not_lt.mpr (le_of_lt this))
      have hpres2 : ∀ q' ∈ l, ¬(j = q'.1 ∧ i = q'.2) ∧ ¬(j = q'.2 ∧ i = q'.1) := by
        intro q' hq'
        constructor
        · rintro ⟨h1, h2⟩
          have := hltl q' hq'
          rw [← h1, ← h2] at this
          exact absurd hij (not_lt.mpr (le_of_lt this))
        · rintro ⟨rfl, rfl⟩
          exact hql hq'
      rw [List.foldl_cons]
      constructor
      · rw [foldl_symmUpdate_preserve v i j l (symmUpdate v ds2 (i, j)) hpres1]
        unfold symmUpdate
        by_cases hg : ds2 (i, j).1 (i, j).2 = 0
        · rw [if_pos hg, if_pos (Or.inl ⟨rfl, rfl⟩), if_pos hg]
        · rw [if_neg hg, if_neg hg]
      · rw [foldl_symmUpdate_preserve v j i l (symmUpdate v ds2 (i, j)) hpres2]
        unfold symmUpdate
        by_cases hg : ds2 (i, j).1 (i, j).2 = 0
        · rw [if_pos hg, if_pos (Or.inr ⟨rfl, rfl⟩), if_pos hg]
        · rw [if_neg hg, if_neg hg]
    · have hq : q ≠ (i, j) := fun h => hql (h ▸ hmem')
      have hqlt := hlt q (List.mem_cons_self q l)
      have e1 : symmUpdate v ds2 q i j = ds2 i j := by
        apply symmUpdate_preserve
        · rintro ⟨h1, h2⟩
          exact hq (Prod.ext h1.symm h2.symm)
        · rintro ⟨h1, h2⟩
          rw [← h1, ← h2] at hqlt
          exact absurd hqlt (not_lt.mpr (le_of_lt hij))
      have e2 : symmUpdate v ds2 q j i = ds2 j i := by
        apply symmUpdate_preserve
        · rintro ⟨h1, h2⟩
          rw [← h1, ← h2] at hqlt
          exact absurd hqlt (not_lt.mpr (le_of_lt hij))
        · rintro ⟨h1, h2⟩
          exact hq (Prod.ext h2.symm h1.symm)
      rw [List.foldl_cons]
      obtain ⟨r1, r2⟩ := ih (symmUpdate v ds2 q) hmem' hnodl hltl
      rw [r1, r2, e1, e2]
      exact ⟨rfl, rfl⟩

/-- The diagonal is never touched by the pair loop and starts at 0 when the
input has a zero diagonal. -/
theorem sep_fold_diag {N : ℕ} (v : Fin N → Fin N → ℚ) (l : List (Fin N × Fin N))
    (hl : ∀ q ∈ l, q.2 < q.1) (LP : QMat N) (hdiag : ∀ i, LP i i = 0) (i : Fin N) :
    l.foldl (symmUpdate v) (ds2Init LP) i i = 0 := by
  rw [foldl_symmUpdate_preserve v i i l (ds2Init LP) ?_]
  · unfold ds2Init
    rw [hdiag i]
    ring
  · intro q hq
    have hlt := hl q hq
    constructor
    · rintro ⟨h1, h2⟩
      rw [← h1, ← h2] at hlt
      exact lt_irrefl i hlt
    · rintro ⟨h1, h2⟩
      rw [← h1, ← h2] at hlt
      exact lt_irrefl i hlt

theorem ds2Init_symm {N : ℕ} (LP : QMat N) (i j : Fin N) :
    ds2Init LP i j = ds2Init LP j i := by
  unfold ds2Init
  ring

/-- C3: for every longest-path-shaped input (zero diagonal, and for `i ≠ j`
at most one of `LP[i,j]`, `LP[j,i]` nonzero), the separation matrices of
both estimators have zero diagonal and are exactly symmetric. -/
theorem separation_symm_diag {N : ℕ} (LP : QMat N) (dmax : Option ℚ)
    (hdiag : ∀ i, LP i i = 0)
    (hanti : ∀ i j, i ≠ j → LP i j = 0 ∨ LP j i = 0) :
    (∀ i, naive_spacelike_matrix LP dmax i i = 0) ∧
      (∀ i j, naive_spacelike_matrix LP dmax i j = naive_spacelike_matrix LP dmax j i) ∧
      (∀ i, twolink_spacelike_matrix LP dmax i i = 0) ∧
      (∀ i j, twolink_spacelike_matrix LP dmax i j = twolink_spacelike_matrix LP dmax j i) := by
  refine ⟨?_, ?_, ?_, ?_⟩
  · intro i
    simp only [naive_spacelike_matrix]
    exact sep_fold_diag _ (pairsDS N) pairsDS_sndlt LP hdiag i
  · intro i j
    simp only [naive_spacelike_matrix]
    exact foldl_symmUpdate_symm _ (pairsDS N) (ds2Init LP) (ds2Init_symm LP) i j
  · intro i
    simp only [twolink_spacelike_matrix]
    exact sep_fold_diag _ (pairsDS N) pairsDS_sndlt LP hdiag i
  · intro i j
    simp only [twolink_spacelike_matrix]
    exact foldl_symmUpdate_symm _ (pairsDS N) (ds2Init LP) (ds2Init_symm LP) i j

/-- The all-zero 2×2 longest-path matrix, used as a witness input below. -/
def zeroLP2 : QMat 2 := fun _ _ => 0

/-- Witness for `separation_symm_diag` at the concrete input `zeroLP2`. -/
theorem separation_symm_diag_witness :
    (∀ i : Fin 2, zeroLP2 i i = 0) ∧
      ((∀ i, naive_spacelike_matrix zeroLP2 (some 3) i i = 0) ∧
        (∀ i j, naive_spacelike_matrix zeroLP2 (some 3) i j =
          naive_spacelike_matrix zeroLP2 (some 3) j i) ∧
        (∀ i, twolink_spacelike_matrix zeroLP2 (some 3) i i = 0) ∧
        (∀ i j, twolink_spacelike_matrix zeroLP2 (some 3) i j =
          twolink_spacelike_matrix zeroLP2 (some 3) j i)) :=
  ⟨by decide, separation_symm_diag zeroLP2 (some 3) (by decide) (by decide)⟩

/-- C6: for every spacelike pair (no directed path either way, so the
initial `ds2` entry is 0), if the naive estimator's mutual past or mutual
future is empty, both symmetric entries are exactly `dmax²` (with `dmax`
the supplied value or its `np.max(LP)` default); likewise for the two-link
estimator when the mutual two-link future is empty.  A finite saturation
value, never an error. -/
theorem separation_empty_saturates {N : ℕ} (LP : QMat N) (dmax : Option ℚ)
    (i j : Fin N) (hij : j < i) (hsp : LP i j + LP j i = 0) :
    ((wList LP i j = ∅ ∨ zList LP i j = ∅) →
        naive_spacelike_matrix LP dmax i j =
            dmax.getD (npMax LP) * dmax.getD (npMax LP) ∧
          naive_spacelike_matrix LP dmax j i =
            dmax.getD (npMax LP) * dmax.getD (npMax LP)) ∧
      (twoLinkFuture LP i j = ∅ →
        twolink_spacelike_matrix LP dmax i j = dmax.getD (npMax LP) ^ 2 ∧
          twolink_spacelike_matrix LP dmax j i = dmax.getD (npMax LP) ^ 2) := by
  have hmem : (i, j) ∈ pairsDS N := (mem_pairsDS i j).mpr hij
  have hguard : ds2Init LP i j = 0 := by
    unfold ds2Init
    rw [hsp]
    ring
  constructor
  · intro hempty
    have hsd : spDistNaive LP (dmax.getD (npMax LP)) i j = dmax.getD (npMax LP) := by
      unfold spDistNaive
      rw [if_neg]
      rintro ⟨hz, hw⟩
      rcases hempty with he | he
      · rw [he] at hw
        exact absurd hw Finset.not_nonempty_empty
      · rw [he] at hz
        exact absurd hz Finset.not_nonempty_empty
    obtain ⟨r1, r2⟩ := foldl_symmUpdate_eval
      (fun a b => spDistNaive LP (dmax.getD (npMax LP)) a b *
        spDistNaive LP (dmax.getD (npMax LP)) a b)
      i j hij (pairsDS N) (ds2Init LP) hmem pairsDS_nodup pairsDS_sndlt
    constructor
    · simp only [naive_spacelike_matrix]
      rw [r1, if_pos hguard, hsd]
    · simp only [naive_spacelike_matrix]
      rw [r2, if_pos hguard, hsd]
  · intro hempty
    have hav : avTwoLink LP (dmax.getD (npMax LP)) i j = dmax.getD (npMax LP) := by
      unfold avTwoLink
      rw [if_neg]
      intro hne
      rw [hempty] at hne
      exact absurd hne Finset.not_nonempty_empty
    obtain ⟨r1, r2⟩ := foldl_symmUpdate_eval
      (fun a b => avTwoLink LP (dmax.getD (npMax LP)) a b ^ 2)
      i j hij (pairsDS N) (ds2Init LP) hmem pairsDS_nodup pairsDS_sndlt
    constructor
    · simp only [twolink_spacelike_matrix]
      rw [r1, if_pos hguard, hav]
    · simp only [twolink_spacelike_matrix]
      rw [r2, if_pos hguard, hav]

/-- Witness for `separation_empty_saturates` at the concrete input
`zeroLP2`, pair `(1, 0)`, `dmax = 3`. -/
theorem separation_empty_saturates_witness :
    (0 : Fin 2) < 1 ∧ zeroLP2 1 0 + zeroLP2 0 1 = 0 ∧
      (((wList zeroLP2 1 0 = ∅ ∨ zList zeroLP2 1 0 = ∅) →
          naive_spacelike_matrix zeroLP2 (some 3) 1 0 =
              (some (3 : ℚ)).getD (npMax zeroLP2) * (some (3 : ℚ)).getD (npMax zeroLP2) ∧
            naive_spacelike_matrix zeroLP2 (some 3) 0 1 =
              (some (3 : ℚ)).getD (npMax zeroLP2) * (some (3 : ℚ)).getD (npMax zeroLP2)) ∧
        (twoLinkFuture zeroLP2 1 0 = ∅ →
          twolink_spacelike_matrix zeroLP2 (some 3) 1 0 =
              (some (3 : ℚ)).getD (npMax zeroLP2) ^ 2 ∧
            twolink_spacelike_matrix zeroLP2 (some 3) 0 1 =
              (some (3 : ℚ)).getD (npMax zeroLP2) ^ 2)) :=
  ⟨by decide, by norm_num [zeroLP2],
    separation_empty_saturates zeroLP2 (some 3) 1 0 (by decide) (by norm_num [zeroLP2])⟩

/-- C8: with `k ≥ N` landmarks, the landmark-restricted naive estimator is
elementwise identical to the unrestricted matrix_utils call (`k = None`)
and to dagsep's landmark-free `naive_spacelike_matrix`. -/
theorem naive_landmark_unrestricted {N : ℕ} (LP : QMat N) (dmax : Option ℚ)
    (m : ℕ) (hm : N ≤ m) :
    naive_spacelike_matrixMU LP dmax (some m) = naive_spacelike_matrix LP dmax ∧
      naive_spacelike_matrixMU LP dmax (some m) =
        naive_spacelike_matrixMU LP dmax none := by
  unfold naive_spacelike_matrixMU naive_spacelike_matrix
  rw [pairsMU_ge m hm, pairsMU_none]
  exact ⟨rfl, rfl⟩

/-- Witness for `naive_landmark_unrestricted` at the all-zero 1×1 matrix
with `k = 1`. -/
theorem naive_landmark_unrestricted_witness :
    1 ≤ 1 ∧
      (naive_spacelike_matrixMU (fun _ _ => 0 : QMat 1) none (some 1) =
          naive_spacelike_matrix (fun _ _ => 0 : QMat 1) none ∧
        naive_spacelike_matrixMU (fun _ _ => 0 : QMat 1) none (some 1) =
          naive_spacelike_matrixMU (fun _ _ => 0 : QMat 1) none none) :=
  ⟨by decide, naive_landmark_unrestricted (fun _ _ => 0) none 1 (by decide)⟩

/-- C9 (counterexample): `causet_adj_matrix` performs no shape validation.
On the non-square `S = [[0, -1]]` (one row of length two) with `R = [[3]]`,
the call returns the normally computed 1×1 matrix `[[0]]` — no
input-validation error is raised, and the result is computed from the
leading 1×1 block of `S`. -/
theorem shape_validation_counterexample :
    ([[(0 : ℚ), -1]] : List (List ℚ)).length = 1 ∧
      ([[(0 : ℚ), -1]] : List (List ℚ)).map List.length = [2] ∧
      causet_adj_matrixL [[0, -1]] [[3]] = some [[0]] := by
  refine ⟨rfl, rfl, ?_⟩
  decide

/-- C9 (amended): none of the operations reject ragged input at the
boundary; in particular `causet_adj_matrix`, run on any non-square
1×2 separation matrix `[[s0, s1]]` with coordinates `[[r0]]`, returns the
1×1 matrix `[[0]]` normally instead of raising a validation error. -/
theorem shape_no_validation (s0 s1 r0 : ℚ) :
    causet_adj_matrixL [[s0, s1]] [[r0]] = some [[0]] := by
  have h : ¬ ((r0 : ℚ) < r0) := lt_irrefl r0
  simp [causet_adj_matrixL, getEntry, List.mapM, List.mapM.loop, h]
